import Mathlib

/-!
# Verification of the `Money`/`Currency` library

A shallow embedding of `src/currency.ts` and `src/money.ts`
(polyteknikkojenorkesteri/money).  The library stores amounts as
decimal.js `Decimal` values; every amount produced by the library is a
decimal with finitely many places, so amounts and scalars are embedded as
rationals (`ℚ`), with the decimal.js rounding operations made explicit.
JavaScript `number` ratio values are likewise embedded as `ℚ`: the
intermediate share computation of `Money.allocate` is modelled at exact
rational precision, which is the intended semantics of the code (the
floating intermediates exist only to be floored/rounded back to integers).

Thrown JavaScript errors are embedded with `Except`.
-/

/-- JavaScript `Math.round`: round to the nearest integer, halves toward
positive infinity.  Used by `Money.allocate` (money.ts line 129). -/
def jsRound (q : ℚ) : ℤ := ⌊q + 1 / 2⌋

/-- decimal.js `ROUND_HALF_UP` (the library-wide default rounding mode):
round to the nearest integer, halves away from zero. -/
def roundHalfUp (q : ℚ) : ℤ := if 0 ≤ q then ⌊q + 1 / 2⌋ else -⌊-q + 1 / 2⌋

/-- decimal.js `toDecimalPlaces e` (and `toFixed e` followed by re-parsing)
under the default `ROUND_HALF_UP` mode: round to `e` decimal places,
halves away from zero. -/
def toDecimalPlaces (q : ℚ) (e : ℕ) : ℚ := (roundHalfUp (q * 10 ^ e) : ℚ) / 10 ^ e

/-- `q` is a decimal number with at most `e` decimal places: an integer
count of `10 ^ e`-ths. -/
def atPlaces (q : ℚ) (e : ℕ) : Prop := ∃ z : ℤ, q = (z : ℚ) / 10 ^ e

/-- The errors thrown by the library: `CurrencyError` (currency.ts line
110), the plain `Error('No ratios defined')` of `Money.allocate`
(money.ts line 105), and the error decimal.js throws when asked to
convert a non-decimal value (reached through `Money.equals`). -/
inductive JsError where
  | currencyError
  | noRatiosDefined
  | decimalError
deriving DecidableEq, Repr

/-- currency.ts: a `Currency` is a `code` together with a non-negative
minor-unit `exponent`. -/
structure Currency where
  code : String
  exponent : ℕ
deriving DecidableEq, Repr

/-- The possible JavaScript values passed to `Currency.equals(another:
unknown)`: `undefined`, `null`, a string, a record carrying `code` and
`exponent` fields (a `Currency` instance or a `CurrencyDefinition`
object), or any other non-record value (number, boolean, ...). -/
inductive EqArg where
  | undef
  | null
  | str (s : String)
  | record (code : String) (exponent : ℕ)
  | other
deriving DecidableEq, Repr

/-- Modelled from the spec: `isRecord` lives in `src/util.ts`, which is
absent from the sources (only its import in currency.ts remains).  Per
the spec, only record-shaped input can carry `code` and `exponent`
fields; every other non-string, non-null value is type-mismatched and
compares `false`.  So `isRecord` holds exactly of the `record` shape. -/
def isRecord : EqArg → Bool
  | .record _ _ => true
  | _ => false

namespace Currency

/-- currency.ts lines 74–84: `Currency.equals`.  `undefined`/`null`
compare `false`; a string compares against `code` only; a record
compares `code` and `exponent`; anything else compares `false`. -/
def equals (c : Currency) (another : EqArg) : Bool :=
  if another = .undef ∨ another = .null then false
  else
    match another with
    | .str s => c.code == s
    | x =>
      if isRecord x then
        match x with
        | .record code exp => c.code == code && c.exponent == exp
        | _ => false
      else false

/-- `Currency.equals` applied to another `Currency` instance, as done by
`Money.checkSameCurrency` (money.ts line 202): the instance is a record
carrying its `code` and `exponent`. -/
def equalsC (c d : Currency) : Bool := c.equals (.record d.code d.exponent)

end Currency

/-- currency.ts line 89: the predefined `EUR` currency. -/
def EUR : Currency := ⟨"EUR", 2⟩

/-- currency.ts line 93: the predefined `USD` currency. -/
def USD : Currency := ⟨"USD", 2⟩

/-- money.ts: a `Money` pairs a decimal `amount` with a `Currency`. -/
structure Money where
  amount : ℚ
  currency : Currency
deriving DecidableEq, Repr

namespace Money

/-- money.ts lines 35–44 (the constructor, reached from
`Money.valueOf`): the amount is rounded to `currency.exponent` decimal
places with decimal.js `toDecimalPlaces` (default `ROUND_HALF_UP`). -/
def valueOf (amount : ℚ) (currency : Currency) : Money :=
  ⟨toDecimalPlaces amount currency.exponent, currency⟩

/-- money.ts line 54: `isZero`. -/
def isZero (m : Money) : Bool := m.amount == 0

/-- money.ts lines 216–221: `withAmount` builds a new `Money` with the
given amount and this object's currency (through the constructor, hence
re-rounding to the currency's exponent). -/
def withAmount (m : Money) (amount : ℚ) : Money := Money.valueOf amount m.currency

/-- money.ts lines 58–63: `plus` checks the currencies match (throwing
`CurrencyError` otherwise) and returns a new `Money` with the sum. -/
def plus (m v : Money) : Except JsError Money :=
  if m.currency.equalsC v.currency then .ok (m.withAmount (m.amount + v.amount))
  else .error .currencyError

/-- money.ts lines 65–70: `minus`, like `plus` with a difference. -/
def minus (m v : Money) : Except JsError Money :=
  if m.currency.equalsC v.currency then .ok (m.withAmount (m.amount - v.amount))
  else .error .currencyError

/-- money.ts lines 72–74: `mul` by a scalar, no currency check. -/
def mul (m : Money) (multiplier : ℚ) : Money := m.withAmount (m.amount * multiplier)

/-- money.ts lines 76–78: `div` by a scalar, no currency check. -/
def div (m : Money) (divider : ℚ) : Money := m.withAmount (m.amount / divider)

/-- money.ts lines 80–88: `convertTo` multiplies by the rate, rounds to
the *current* currency's exponent (`toFixed`), and hands the result to
the constructor of a `Money` in the target currency (which re-rounds to
the target's exponent). -/
def convertTo (m : Money) (currency : Currency) (rate : ℚ) : Money :=
  Money.valueOf (toDecimalPlaces (m.amount * rate) m.currency.exponent) currency

/-- The amount of `m` counted in minor units of its currency. -/
def minorUnits (m : Money) : ℚ := m.amount * 10 ^ m.currency.exponent

/-- The `Money` precision invariant: the amount has at most
`currency.exponent` decimal places. -/
def isAtPrecision (m : Money) : Prop := atPlaces m.amount m.currency.exponent

end Money

/-- money.ts line 127: the exact share of one ratio, `amountAsInt * ratio /
sumOfRatios`. -/
def allocShare (amountAsInt : ℤ) (sumOfRatios ratio : ℚ) : ℚ :=
  amountAsInt * ratio / sumOfRatios

/-- money.ts line 129: the per-key rounding signal stored in
`remainders`: `Math.round(result) - Math.floor(result)`. -/
def remFlag (result : ℚ) : ℤ := jsRound result - ⌊result⌋

/-- money.ts lines 138–143, the first remainder pass: walk the keys in
insertion order and, while the running `remainder` is positive, award one
extra minor unit to each key whose rounding signal is positive.  Takes
the list of `(key, floored result, rounding signal)` triples and the
incoming remainder; returns the updated `(key, result)` list and the
remainder left over. -/
def passOne : List (String × ℤ × ℤ) → ℤ → List (String × ℤ) × ℤ
  | [], remainder => ([], remainder)
  | (k, res, rem) :: rest, remainder =>
    if 0 < rem ∧ 0 < remainder then
      let out := passOne rest (remainder - 1)
      ((k, res + 1) :: out.1, out.2)
    else
      let out := passOne rest remainder
      ((k, res) :: out.1, out.2)

/-- money.ts lines 147–149, the second remainder pass: award one unit to
each of the first `remainder` keys in insertion order. -/
def passTwo : List (String × ℤ) → ℤ → List (String × ℤ)
  | [], _ => []
  | (k, res) :: rest, remainder =>
    if 0 < remainder then (k, res + 1) :: passTwo rest (remainder - 1)
    else (k, res) :: rest

namespace Money

/-- money.ts lines 115–116: the amount as an integer count of minor
currency units, `this.amount.mul(multiplier).toNumber()`.  A `Money`
amount is a decimal at `exponent` places, so `amount * 10 ^ exponent` is
integer-valued and `toNumber()` reads it off exactly; the floor makes
that extraction total. -/
def amountAsInt (m : Money) : ℤ := ⌊m.amount * 10 ^ m.currency.exponent⌋

/-- money.ts lines 126–131, the allocation loop: for each key, in
insertion order, the floored integer share `Math.floor(result)` together
with the rounding signal `Math.round(result) - Math.floor(result)`
stored in `remainders`. -/
def allocShares (m : Money) (ratios : List (String × ℚ)) : List (String × ℤ × ℤ) :=
  ratios.map fun p =>
    (p.1, ⌊allocShare m.amountAsInt (ratios.map Prod.snd).sum p.2⌋,
      remFlag (allocShare m.amountAsInt (ratios.map Prod.snd).sum p.2))

/-- money.ts lines 124–131: the value of the mutable `remainder` after
the allocation loop, `amountAsInt` minus all floored shares. -/
def allocRemainder (m : Money) (ratios : List (String × ℚ)) : ℤ :=
  m.amountAsInt - ((m.allocShares ratios).map fun s => s.2.1).sum

/-- money.ts lines 97–155: `Money.allocate`.  The `NumberMap` of ratios
is embedded as an association list in insertion order (JavaScript object
entries enumerate in insertion order for the string keys used here).  If
the ratios sum to zero the call either fails with `'No ratios defined'`
(non-zero amount) or maps every key to this `Money` (zero amount).
Otherwise each key gets the floor of its exact share of `amountAsInt`,
the left-over units are distributed by the two remainder passes, and
each integer result is divided back by the multiplier and wrapped
through `withAmount` (lines 151–154). -/
def allocate (m : Money) (ratios : List (String × ℚ)) :
    Except JsError (List (String × Money)) :=
  let sumOfRatios := (ratios.map Prod.snd).sum
  if sumOfRatios = 0 then
    if !m.isZero then .error .noRatiosDefined
    else .ok (ratios.map fun p => (p.1, m))
  else
    let afterFirst := passOne (m.allocShares ratios) (m.allocRemainder ratios)
    let results := passTwo afterFirst.1 afterFirst.2
    .ok (results.map fun p =>
      (p.1, m.withAmount ((p.2 : ℚ) / 10 ^ m.currency.exponent)))

end Money

/-- The possible JavaScript values passed to `Money.equals(another:
any)`: `undefined`, `null`, or an object whose `amount` field either
converts to a decimal (`some q`) or does not (`none` — the field is
absent, as on the empty object `\x7b\x7d`, or not decimal-convertible)
and whose `currency` field is an arbitrary value compared by
`Currency.equals`. -/
inductive MoneyArg where
  | undef
  | null
  | obj (amount : Option ℚ) (currency : EqArg)
deriving DecidableEq, Repr

namespace Money

/-- money.ts lines 185–194: `Money.equals` returns `false` for
`undefined` and `null`, and otherwise immediately evaluates
`this.amount.equals(another.amount)` — decimal.js converts the argument
with `new Decimal(another.amount)`, which throws when the field is not
decimal-convertible (for instance `undefined` on the empty object) — and
then conjoins the currency comparison. -/
def equals (m : Money) (another : MoneyArg) : Except JsError Bool :=
  match another with
  | .undef => .ok false
  | .null => .ok false
  | .obj amount currency =>
    match amount with
    | none => .error .decimalError
    | some q => .ok ((m.amount == q) && m.currency.equals currency)

end Money

/-! ## Helper lemmas about the rounding primitives -/

lemma roundHalfUp_intCast (z : ℤ) : roundHalfUp (z : ℚ) = z := by
  unfold roundHalfUp
  rcases le_or_lt 0 (z : ℚ) with h | h
  · rw [if_pos h]
    rw [show ((z : ℚ) + 1 / 2) = (z : ℚ) + (1 / 2 : ℚ) by ring, Int.floor_int_add]
    norm_num
  · rw [if_neg (not_le.mpr h)]
    rw [show (-(z : ℚ) + 1 / 2) = ((-z : ℤ) : ℚ) + (1 / 2 : ℚ) by push_cast; ring,
      Int.floor_int_add]
    norm_num

lemma atPlaces_toDecimalPlaces (q : ℚ) (e : ℕ) : atPlaces (toDecimalPlaces q e) e :=
  ⟨roundHalfUp (q * 10 ^ e), rfl⟩

lemma toDecimalPlaces_of_atPlaces {q : ℚ} {e : ℕ} (h : atPlaces q e) :
    toDecimalPlaces q e = q := by
  obtain ⟨z, rfl⟩ := h
  have h10 : (10 : ℚ) ^ e ≠ 0 := by positivity
  unfold toDecimalPlaces
  rw [div_mul_cancel₀ _ h10, roundHalfUp_intCast]

lemma atPlaces_mul_pow {q : ℚ} {e : ℕ} (h : atPlaces q e) :
    ∃ z : ℤ, q * 10 ^ e = (z : ℚ) := by
  obtain ⟨z, rfl⟩ := h
  exact ⟨z, div_mul_cancel₀ _ (by positivity)⟩

lemma atPlaces_add {q r : ℚ} {e : ℕ} (hq : atPlaces q e) (hr : atPlaces r e) :
    atPlaces (q + r) e := by
  obtain ⟨z, rfl⟩ := hq
  obtain ⟨w, rfl⟩ := hr
  exact ⟨z + w, by push_cast; ring⟩

lemma atPlaces_sub {q r : ℚ} {e : ℕ} (hq : atPlaces q e) (hr : atPlaces r e) :
    atPlaces (q - r) e := by
  obtain ⟨z, rfl⟩ := hq
  obtain ⟨w, rfl⟩ := hr
  exact ⟨z - w, by push_cast; ring⟩

lemma remFlag_nonneg (x : ℚ) : 0 ≤ remFlag x := by
  unfold remFlag jsRound
  have h := Int.floor_le_floor (show x ≤ x + 1 / 2 by linarith)
  omega

lemma remFlag_le_one (x : ℚ) : remFlag x ≤ 1 := by
  unfold remFlag jsRound
  have h := Int.floor_le_floor (show x + 1 / 2 ≤ x + 1 by linarith)
  rw [Int.floor_add_one] at h
  omega

lemma remFlag_zero : remFlag 0 = 0 := by
  unfold remFlag jsRound
  norm_num

/-! ## Helper lemmas about list sums -/

lemma all_zero_of_nonneg_of_sum_eq_zero {L : List ℚ} (h0 : ∀ x ∈ L, 0 ≤ x)
    (hs : L.sum = 0) : ∀ x ∈ L, x = 0 := fun _ hx =>
  List.all_zero_of_le_zero_le_of_sum_eq_zero h0 hs hx

lemma sum_pos_of_nonneg_of_exists {L : List ℚ} (h0 : ∀ x ∈ L, 0 ≤ x)
    (hx : ∃ x ∈ L, x ≠ 0) : 0 < L.sum := by
  rcases lt_or_eq_of_le (List.sum_nonneg h0) with h | h
  · exact h
  · obtain ⟨x, hmem, hne⟩ := hx
    exact absurd (all_zero_of_nonneg_of_sum_eq_zero h0 h.symm x hmem) hne

lemma sum_map_allocShare (t : ℤ) (S : ℚ) (L : List (String × ℚ)) :
    (L.map fun p => allocShare t S p.2).sum = t * (L.map Prod.snd).sum / S := by
  induction L with
  | nil => simp
  | cons a tl ih =>
    rw [List.map_cons, List.sum_cons, ih, List.map_cons, List.sum_cons]
    unfold allocShare
    ring

lemma sum_map_floor_le (L : List (String × ℚ)) (f : String × ℚ → ℚ) :
    (((L.map fun p => ⌊f p⌋).sum : ℤ) : ℚ) ≤ (L.map fun p => f p).sum := by
  induction L with
  | nil => simp
  | cons a tl ih =>
    simp only [List.map_cons, List.sum_cons]
    rw [Int.cast_add]
    exact add_le_add (Int.floor_le _) ih

lemma sum_lt_sum_map_floor_add_length (L : List (String × ℚ)) (f : String × ℚ → ℚ)
    (h : L ≠ []) :
    (L.map fun p => f p).sum < (((L.map fun p => ⌊f p⌋).sum : ℤ) : ℚ) + L.length := by
  induction L with
  | nil => exact absurd rfl h
  | cons a tl ih =>
    rcases tl with - | ⟨b, tl2⟩
    · simp only [List.map_cons, List.map_nil, List.sum_cons, List.sum_nil,
        List.length_cons, List.length_nil]
      push_cast
      have := Int.lt_floor_add_one (f a)
      linarith
    · have step := ih (by simp)
      simp only [List.map_cons, List.sum_cons, List.length_cons] at step ⊢
      push_cast at step ⊢
      have := Int.lt_floor_add_one (f a)
      linarith

/-! ## Helper lemmas about the remainder passes -/

lemma passOne_map_fst (L : List (String × ℤ × ℤ)) :
    ∀ r, ((passOne L r).1).map Prod.fst = L.map Prod.fst := by
  induction L with
  | nil => intro r; simp [passOne]
  | cons a tl ih =>
    intro r
    obtain ⟨k, res, rem⟩ := a
    simp only [passOne]
    split
    · simp [ih]
    · simp [ih]

lemma passOne_length (L : List (String × ℤ × ℤ)) :
    ∀ r, ((passOne L r).1).length = L.length := by
  induction L with
  | nil => intro r; simp [passOne]
  | cons a tl ih =>
    intro r
    obtain ⟨k, res, rem⟩ := a
    simp only [passOne]
    split
    · simp [ih]
    · simp [ih]

lemma passOne_sum (L : List (String × ℤ × ℤ)) :
    ∀ r, (((passOne L r).1).map fun p => p.2).sum =
      (L.map fun s => s.2.1).sum + (r - (passOne L r).2) := by
  induction L with
  | nil => intro r; simp [passOne]
  | cons a tl ih =>
    intro r
    obtain ⟨k, res, rem⟩ := a
    simp only [passOne]
    split
    · simp only [List.map_cons, List.sum_cons, ih (r - 1)]
      ring
    · simp only [List.map_cons, List.sum_cons, ih r]
      ring

lemma passOne_rem_bounds (L : List (String × ℤ × ℤ)) :
    ∀ r, 0 ≤ r → 0 ≤ (passOne L r).2 ∧ (passOne L r).2 ≤ r := by
  induction L with
  | nil => intro r hr; simp [passOne, hr]
  | cons a tl ih =>
    intro r hr
    obtain ⟨k, res, rem⟩ := a
    simp only [passOne]
    split
    case isTrue h =>
      have := ih (r - 1) (by omega)
      constructor
      · exact this.1
      · omega
    case isFalse h =>
      exact ih r hr

lemma passOne_untouched (L : List (String × ℤ × ℤ)) :
    ∀ r, List.Forall₂ (fun s o => s.1 = o.1 ∧ (s.2.2 ≤ 0 → o.2 = s.2.1) ∧
      (o.2 = s.2.1 ∨ o.2 = s.2.1 + 1)) L (passOne L r).1 := by
  induction L with
  | nil => intro r; simp [passOne]
  | cons a tl ih =>
    intro r
    obtain ⟨k, res, rem⟩ := a
    simp only [passOne]
    split
    case isTrue h =>
      exact List.Forall₂.cons ⟨rfl, fun hle => absurd h.1 (not_lt.mpr hle), Or.inr rfl⟩
        (ih (r - 1))
    case isFalse h =>
      exact List.Forall₂.cons ⟨rfl, fun _ => rfl, Or.inl rfl⟩ (ih r)

lemma passTwo_map_fst (L : List (String × ℤ)) :
    ∀ r, (passTwo L r).map Prod.fst = L.map Prod.fst := by
  induction L with
  | nil => intro r; simp [passTwo]
  | cons a tl ih =>
    intro r
    obtain ⟨k, res⟩ := a
    simp only [passTwo]
    split
    · simp [ih]
    · simp

lemma passTwo_sum (L : List (String × ℤ)) :
    ∀ r : ℤ, 0 ≤ r → r ≤ (L.length : ℤ) →
      ((passTwo L r).map fun p => p.2).sum = (L.map fun p => p.2).sum + r := by
  induction L with
  | nil =>
    intro r h0 hlen
    simp only [List.length_nil, Nat.cast_zero] at hlen
    have : r = 0 := le_antisymm hlen h0
    simp [passTwo, this]
  | cons a tl ih =>
    intro r h0 hlen
    obtain ⟨k, res⟩ := a
    simp only [passTwo]
    split
    case isTrue h =>
      simp only [List.length_cons, Nat.cast_add, Nat.cast_one] at hlen
      simp only [List.map_cons, List.sum_cons, ih (r - 1) (by omega) (by omega)]
      ring
    case isFalse h =>
      have : r = 0 := by omega
      simp [this]

lemma passTwo_movement (L : List (String × ℤ)) :
    ∀ r, List.Forall₂ (fun a b => a.1 = b.1 ∧ (b.2 = a.2 ∨ b.2 = a.2 + 1))
      L (passTwo L r) := by
  induction L with
  | nil => intro r; simp [passTwo]
  | cons a tl ih =>
    intro r
    obtain ⟨k, res⟩ := a
    simp only [passTwo]
    split
    · exact List.Forall₂.cons ⟨rfl, Or.inr rfl⟩ (ih (r - 1))
    · exact List.Forall₂.cons ⟨rfl, Or.inl rfl⟩
        (List.forall₂_same.mpr fun x _ => ⟨rfl, Or.inl rfl⟩)

/-! ## Helper lemmas about the allocation pipeline -/

lemma forall₂_trans_comp {α β γ : Type} {R : α → β → Prop} {S : β → γ → Prop}
    {T : α → γ → Prop} (h : ∀ a b c, R a b → S b c → T a c) :
    ∀ {l1 : List α} {l2 : List β} {l3 : List γ},
      List.Forall₂ R l1 l2 → List.Forall₂ S l2 l3 → List.Forall₂ T l1 l3 := by
  intro l1 l2 l3 h12 h23
  induction h12 generalizing l3 with
  | nil => cases h23; exact List.Forall₂.nil
  | cons hab htl ih =>
    cases h23 with
    | cons hbc htl2 => exact List.Forall₂.cons (h _ _ _ hab hbc) (ih htl2)

lemma forall₂_map_self {α β : Type} (f : α → β) (l : List α) :
    List.Forall₂ (fun a b => b = f a) l (l.map f) := by
  induction l with
  | nil => simp
  | cons a tl ih => exact List.Forall₂.cons rfl ih

lemma allocShares_map_fst (m : Money) (ratios : List (String × ℚ)) :
    (m.allocShares ratios).map Prod.fst = ratios.map Prod.fst := by
  simp [Money.allocShares, List.map_map, Function.comp_def]

lemma allocShares_length (m : Money) (ratios : List (String × ℚ)) :
    (m.allocShares ratios).length = ratios.length := by
  simp [Money.allocShares]

lemma allocShares_floors (m : Money) (ratios : List (String × ℚ)) :
    ((m.allocShares ratios).map fun s => s.2.1) =
      ratios.map fun p => ⌊allocShare m.amountAsInt (ratios.map Prod.snd).sum p.2⌋ := by
  simp [Money.allocShares, List.map_map, Function.comp_def]

lemma allocRemainder_bounds (m : Money) (ratios : List (String × ℚ))
    (hS : (ratios.map Prod.snd).sum ≠ 0) :
    0 ≤ m.allocRemainder ratios ∧ m.allocRemainder ratios < (ratios.length : ℤ) := by
  have hne : ratios ≠ [] := by rintro rfl; simp at hS
  have hsum : (ratios.map fun p =>
      allocShare m.amountAsInt (ratios.map Prod.snd).sum p.2).sum = (m.amountAsInt : ℚ) :=
    by rw [sum_map_allocShare, mul_div_assoc, div_self hS, mul_one]
  have hle := sum_map_floor_le ratios
    (fun p => allocShare m.amountAsInt (ratios.map Prod.snd).sum p.2)
  have hlt := sum_lt_sum_map_floor_add_length ratios
    (fun p => allocShare m.amountAsInt (ratios.map Prod.snd).sum p.2) hne
  rw [hsum] at hle hlt
  unfold Money.allocRemainder
  rw [allocShares_floors]
  constructor
  · have : ((ratios.map fun p =>
        ⌊allocShare m.amountAsInt (ratios.map Prod.snd).sum p.2⌋).sum : ℤ) ≤
        m.amountAsInt := by exact_mod_cast hle
    omega
  · have : (m.amountAsInt : ℤ) < (ratios.map fun p =>
        ⌊allocShare m.amountAsInt (ratios.map Prod.snd).sum p.2⌋).sum +
        (ratios.length : ℤ) := by exact_mod_cast hlt
    omega

lemma amountAsInt_eq (m : Money) (hm : m.isAtPrecision) :
    (m.amountAsInt : ℚ) = m.minorUnits := by
  obtain ⟨z, hz⟩ := hm
  unfold Money.amountAsInt Money.minorUnits
  rw [hz, div_mul_cancel₀ _ (show (10 : ℚ) ^ m.currency.exponent ≠ 0 by positivity),
    Int.floor_intCast]

lemma withAmount_int_minorUnits (m : Money) (z : ℤ) :
    (m.withAmount ((z : ℚ) / 10 ^ m.currency.exponent)).minorUnits = (z : ℚ) := by
  unfold Money.withAmount Money.valueOf Money.minorUnits
  simp only
  rw [toDecimalPlaces_of_atPlaces ⟨z, rfl⟩,
    div_mul_cancel₀ _ (show (10 : ℚ) ^ m.currency.exponent ≠ 0 by positivity)]

lemma allocate_ok_of_sum_ne_zero (m : Money) (ratios : List (String × ℚ))
    (hS : (ratios.map Prod.snd).sum ≠ 0) :
    m.allocate ratios = .ok
      ((passTwo (passOne (m.allocShares ratios) (m.allocRemainder ratios)).1
          (passOne (m.allocShares ratios) (m.allocRemainder ratios)).2).map fun p =>
        (p.1, m.withAmount ((p.2 : ℚ) / 10 ^ m.currency.exponent))) := by
  unfold Money.allocate
  simp only [if_neg hS]

lemma allocate_results_sum (m : Money) (ratios : List (String × ℚ))
    (hS : (ratios.map Prod.snd).sum ≠ 0) :
    ((passTwo (passOne (m.allocShares ratios) (m.allocRemainder ratios)).1
        (passOne (m.allocShares ratios) (m.allocRemainder ratios)).2).map
      fun p => p.2).sum = m.amountAsInt := by
  have hr0 := allocRemainder_bounds m ratios hS
  have hp1 := passOne_rem_bounds (m.allocShares ratios) (m.allocRemainder ratios) hr0.1
  have hlen : ((passOne (m.allocShares ratios) (m.allocRemainder ratios)).1.length : ℤ) =
      (ratios.length : ℤ) := by
    rw [passOne_length, allocShares_length]
  rw [passTwo_sum _ _ hp1.1 (by rw [hlen]; omega),
    passOne_sum (m.allocShares ratios) (m.allocRemainder ratios)]
  have : ((m.allocShares ratios).map fun s => s.2.1).sum =
      m.amountAsInt - m.allocRemainder ratios := by
    unfold Money.allocRemainder; ring
  rw [this]
  ring

/-- Master specification of `Money.allocate` on the allocation branch
(some ratio is non-zero): the call succeeds, the returned keys are the
ratio keys in order, every returned `Money` carries the input's currency
at its precision, and the minor units of the results sum exactly to
the minor units of the input. -/
lemma allocate_ok_spec (m : Money) (ratios : List (String × ℚ))
    (hm : m.isAtPrecision) (hS : (ratios.map Prod.snd).sum ≠ 0) :
    ∃ out, m.allocate ratios = .ok out
      ∧ out.map Prod.fst = ratios.map Prod.fst
      ∧ (∀ p ∈ out, p.2.currency = m.currency ∧ p.2.isAtPrecision)
      ∧ (out.map fun p => p.2.minorUnits).sum = m.minorUnits := by
  refine ⟨_, allocate_ok_of_sum_ne_zero m ratios hS, ?_, ?_, ?_⟩
  · rw [List.map_map]
    have : (Prod.fst ∘ fun p : String × ℤ =>
        (p.1, m.withAmount ((p.2 : ℚ) / 10 ^ m.currency.exponent))) = Prod.fst := rfl
    rw [this, passTwo_map_fst, passOne_map_fst, allocShares_map_fst]
  · intro p hp
    obtain ⟨q, _, rfl⟩ := List.mem_map.mp hp
    exact ⟨rfl, atPlaces_toDecimalPlaces _ _⟩
  · rw [List.map_map]
    have : ((fun p : String × Money => p.2.minorUnits) ∘ fun p : String × ℤ =>
        (p.1, m.withAmount ((p.2 : ℚ) / 10 ^ m.currency.exponent))) =
        fun p : String × ℤ => ((p.2 : ℤ) : ℚ) := by
      funext q
      exact withAmount_int_minorUnits m q.2
    rw [this]
    have hcast : ((passTwo (passOne (m.allocShares ratios) (m.allocRemainder ratios)).1
          (passOne (m.allocShares ratios) (m.allocRemainder ratios)).2).map
        fun p : String × ℤ => ((p.2 : ℤ) : ℚ)).sum =
        (((passTwo (passOne (m.allocShares ratios) (m.allocRemainder ratios)).1
          (passOne (m.allocShares ratios) (m.allocRemainder ratios)).2).map
        fun p : String × ℤ => p.2).sum : ℚ) := by
      rw [Int.cast_list_sum, List.map_map]
      rfl
    rw [hcast, allocate_results_sum m ratios hS, amountAsInt_eq m hm]

/-- Zero-ratio keys through the allocation pipeline: such a key's floored
share and rounding signal are both zero, so the first remainder pass
leaves it at zero; the second pass can add at most one unit, so its
final amount is `0` or one minor unit. -/
lemma allocate_zero_ratio_spec (m : Money) (ratios : List (String × ℚ))
    (hS : (ratios.map Prod.snd).sum ≠ 0) :
    ∃ out, m.allocate ratios = .ok out
      ∧ List.Forall₂ (fun p q => p.1 = q.1 ∧ (p.2 = 0 →
          q.2.amount = 0 ∨ q.2.amount = 1 / 10 ^ m.currency.exponent)) ratios out
      ∧ List.Forall₂ (fun p o => p.2 = 0 → o.2 = 0) ratios
          (passOne (m.allocShares ratios) (m.allocRemainder ratios)).1 := by
  have hshare0 : ∀ s : ℚ, allocShare m.amountAsInt s 0 = 0 := by
    intro s; unfold allocShare; simp
  have hF0 : List.Forall₂ (fun p s => s =
      (p.1, ⌊allocShare m.amountAsInt ((ratios.map Prod.snd).sum) p.2⌋,
        remFlag (allocShare m.amountAsInt ((ratios.map Prod.snd).sum) p.2)))
      ratios (m.allocShares ratios) := forall₂_map_self _ ratios
  have hF1 := passOne_untouched (m.allocShares ratios) (m.allocRemainder ratios)
  have hRA : List.Forall₂ (fun p o => p.1 = o.1 ∧ (p.2 = 0 → o.2 = 0) ∧
      (o.2 = ⌊allocShare m.amountAsInt ((ratios.map Prod.snd).sum) p.2⌋ ∨
        o.2 = ⌊allocShare m.amountAsInt ((ratios.map Prod.snd).sum) p.2⌋ + 1))
      ratios (passOne (m.allocShares ratios) (m.allocRemainder ratios)).1 := by
    refine forall₂_trans_comp ?_ hF0 hF1
    rintro p s o rfl hso
    refine ⟨hso.1, ?_, hso.2.2⟩
    intro hp0
    rw [hp0] at hso
    have h0 : ⌊allocShare m.amountAsInt ((ratios.map Prod.snd).sum) 0⌋ = 0 := by
      rw [hshare0]; norm_num
    have hflag : remFlag (allocShare m.amountAsInt ((ratios.map Prod.snd).sum) 0) = 0 := by
      rw [hshare0]; exact remFlag_zero
    exact (hso.2.1 (le_of_eq hflag)).trans h0
  have hF2 := passTwo_movement
    (passOne (m.allocShares ratios) (m.allocRemainder ratios)).1
    (passOne (m.allocShares ratios) (m.allocRemainder ratios)).2
  have hRB : List.Forall₂ (fun p b => p.1 = b.1 ∧ (p.2 = 0 → b.2 = 0 ∨ b.2 = 1))
      ratios (passTwo (passOne (m.allocShares ratios) (m.allocRemainder ratios)).1
        (passOne (m.allocShares ratios) (m.allocRemainder ratios)).2) := by
    refine forall₂_trans_comp ?_ hRA hF2
    rintro p a b ha hb
    refine ⟨ha.1.trans hb.1, ?_⟩
    intro hp0
    have ha0 := ha.2.1 hp0
    rcases hb.2 with h | h
    · exact Or.inl (h.trans ha0)
    · exact Or.inr (by omega)
  have hF3 : List.Forall₂ (fun b q => q =
      (b.1, m.withAmount ((b.2 : ℚ) / 10 ^ m.currency.exponent)))
      (passTwo (passOne (m.allocShares ratios) (m.allocRemainder ratios)).1
        (passOne (m.allocShares ratios) (m.allocRemainder ratios)).2)
      ((passTwo (passOne (m.allocShares ratios) (m.allocRemainder ratios)).1
        (passOne (m.allocShares ratios) (m.allocRemainder ratios)).2).map fun b =>
        (b.1, m.withAmount ((b.2 : ℚ) / 10 ^ m.currency.exponent))) :=
    forall₂_map_self _ _
  refine ⟨_, allocate_ok_of_sum_ne_zero m ratios hS, ?_, ?_⟩
  · refine forall₂_trans_comp ?_ hRB hF3
    rintro p b q hb rfl
    refine ⟨hb.1, ?_⟩
    intro hp0
    rcases hb.2 hp0 with h | h
    · left
      show (m.withAmount ((b.2 : ℚ) / 10 ^ m.currency.exponent)).amount = 0
      rw [h]
      unfold Money.withAmount Money.valueOf
      simp only
      rw [show (((0 : ℤ) : ℚ) / 10 ^ m.currency.exponent) = (0 : ℚ) by norm_num]
      rw [toDecimalPlaces_of_atPlaces ⟨0, by norm_num⟩]
    · right
      show (m.withAmount ((b.2 : ℚ) / 10 ^ m.currency.exponent)).amount =
        1 / 10 ^ m.currency.exponent
      rw [h]
      unfold Money.withAmount Money.valueOf
      simp only
      rw [toDecimalPlaces_of_atPlaces ⟨1, by norm_num⟩]
      norm_num
  · exact List.Forall₂.imp (fun p o h => h.2.1) hRA

/-! ## Helper lemmas about the error branches and currency equality -/

lemma equalsC_iff (c d : Currency) : c.equalsC d = true ↔ c = d := by
  obtain ⟨cc, ce⟩ := c
  obtain ⟨dc, de⟩ := d
  simp [Currency.equalsC, Currency.equals, isRecord]

lemma allocate_zero_branch (m : Money) (ratios : List (String × ℚ))
    (h0 : (ratios.map Prod.snd).sum = 0) (hz : m.amount = 0) :
    m.allocate ratios = .ok (ratios.map fun p => (p.1, m)) := by
  unfold Money.allocate
  simp [if_pos h0, Money.isZero, hz]

lemma allocate_error_characterization (m : Money) (ratios : List (String × ℚ))
    (hnn : ∀ p ∈ ratios, 0 ≤ p.2) :
    (m.allocate ratios = .error .noRatiosDefined ↔
      ((∀ p ∈ ratios, p.2 = 0) ∧ m.amount ≠ 0))
    ∧ ((m.allocate ratios).isOk = true ↔
      ¬ ((∀ p ∈ ratios, p.2 = 0) ∧ m.amount ≠ 0)) := by
  have hmap0 : (∀ p ∈ ratios, p.2 = 0) ↔ (ratios.map Prod.snd).sum = 0 := by
    constructor
    · intro h
      exact List.sum_eq_zero fun x hx => by
        obtain ⟨p, hp, rfl⟩ := List.mem_map.mp hx
        exact h p hp
    · intro h p hp
      exact all_zero_of_nonneg_of_sum_eq_zero
        (fun x hx => by
          obtain ⟨q, hq, rfl⟩ := List.mem_map.mp hx
          exact hnn q hq)
        h p.2 (List.mem_map.mpr ⟨p, hp, rfl⟩)
  by_cases hS : (ratios.map Prod.snd).sum = 0
  · by_cases hz : m.amount = 0
    · rw [allocate_zero_branch m ratios hS hz]
      simp [hz, Except.isOk, Except.toBool]
    · have herr : m.allocate ratios = .error .noRatiosDefined := by
        unfold Money.allocate
        simp [if_pos hS, Money.isZero, hz]
      rw [herr]
      refine ⟨⟨fun _ => ⟨hmap0.mpr hS, hz⟩, fun _ => rfl⟩, ?_⟩
      constructor
      · intro h
        exact absurd h (by simp [Except.isOk, Except.toBool])
      · intro h
        exact absurd ⟨hmap0.mpr hS, hz⟩ h
  · rw [allocate_ok_of_sum_ne_zero m ratios hS]
    constructor
    · constructor
      · intro h; exact absurd h (by simp)
      · intro h; exact absurd (hmap0.mp h.1) hS
    · constructor
      · intro _ h; exact absurd (hmap0.mp h.1) hS
      · intro _; simp [Except.isOk, Except.toBool]

/-! ## Claim theorems -/

lemma valueOf_isAtPrecision (a : ℚ) (c : Currency) : (Money.valueOf a c).isAtPrecision :=
  atPlaces_toDecimalPlaces a c.exponent

lemma sum_ne_zero_of_nonneg_of_exists {ratios : List (String × ℚ)}
    (hnn : ∀ p ∈ ratios, 0 ≤ p.2) (hex : ∃ p ∈ ratios, p.2 ≠ 0) :
    (ratios.map Prod.snd).sum ≠ 0 := by
  have hpos : 0 < (ratios.map Prod.snd).sum := by
    apply sum_pos_of_nonneg_of_exists
    · intro x hx
      obtain ⟨p, hp, rfl⟩ := List.mem_map.mp hx
      exact hnn p hp
    · obtain ⟨p, hp, hne⟩ := hex
      exact ⟨p.2, List.mem_map.mpr ⟨p, hp, rfl⟩, hne⟩
  exact ne_of_gt hpos

/-- C1: for every Money with a non-negative amount (at its currency's
precision, as the constructor guarantees) and every ratio map of
non-negative ratios with at least one non-zero ratio, `allocate`
succeeds, returns exactly the ratio keys (in insertion order), every
returned `Money` carries the input's currency, and the returned amounts
in minor units sum exactly to the input's amount in minor units — no
minor unit is created or lost. -/
theorem c1_allocate_sum_invariant (m : Money) (ratios : List (String × ℚ))
    (hm : m.isAtPrecision) (_ha : 0 ≤ m.amount)
    (hnn : ∀ p ∈ ratios, 0 ≤ p.2) (hex : ∃ p ∈ ratios, p.2 ≠ 0) :
    ∃ out, m.allocate ratios = .ok out
      ∧ out.map Prod.fst = ratios.map Prod.fst
      ∧ (∀ p ∈ out, p.2.currency = m.currency)
      ∧ (out.map fun p => p.2.minorUnits).sum = m.minorUnits := by
  obtain ⟨out, h1, h2, h3, h4⟩ :=
    allocate_ok_spec m ratios hm (sum_ne_zero_of_nonneg_of_exists hnn hex)
  exact ⟨out, h1, h2, fun p hp => (h3 p hp).1, h4⟩

/-- C1 witness: the sum invariant at `10.00 EUR` split `5 : 2`. -/
theorem c1_witness :
    ∃ out, (Money.valueOf 10 EUR).allocate [("A", 5), ("B", 2)] = .ok out
      ∧ out.map Prod.fst = [("A", (5 : ℚ)), ("B", 2)].map Prod.fst
      ∧ (∀ p ∈ out, p.2.currency = (Money.valueOf 10 EUR).currency)
      ∧ (out.map fun p => p.2.minorUnits).sum = (Money.valueOf 10 EUR).minorUnits :=
  c1_allocate_sum_invariant (Money.valueOf 10 EUR) [("A", 5), ("B", 2)]
    (valueOf_isAtPrecision 10 EUR)
    (by norm_num [Money.valueOf, toDecimalPlaces, roundHalfUp, EUR])
    (by simp only [List.mem_cons, List.not_mem_nil, or_false]
        rintro p (rfl | rfl) <;> norm_num)
    ⟨("A", 5), by simp, by norm_num⟩

/-- C2 counterexample: allocating `1.00 EUR` with ratios
`0 ↦ 0, 1 ↦ 1, 2 ↦ 1, 3 ↦ 1` awards one minor unit (`0.01`) to the
zero-ratio key `0` — the second remainder pass hands the leftover unit
to the first key regardless of its ratio — and removing the zero-ratio
key changes key `1` from `0.33` to `0.34`.  This refutes both that a
zero-ratio key never receives a unit in either remainder pass and that
removing it leaves the other allocations unchanged. -/
theorem c2_counterexample :
    Money.allocate (Money.valueOf 1 EUR) [("0", 0), ("1", 1), ("2", 1), ("3", 1)] =
      .ok [("0", Money.valueOf (1 / 100) EUR), ("1", Money.valueOf (33 / 100) EUR),
        ("2", Money.valueOf (33 / 100) EUR), ("3", Money.valueOf (33 / 100) EUR)]
    ∧ (Money.valueOf (1 / 100) EUR).amount ≠ 0
    ∧ Money.allocate (Money.valueOf 1 EUR) [("1", 1), ("2", 1), ("3", 1)] =
      .ok [("1", Money.valueOf (34 / 100) EUR), ("2", Money.valueOf (33 / 100) EUR),
        ("3", Money.valueOf (33 / 100) EUR)]
    ∧ Money.valueOf (33 / 100) EUR ≠ Money.valueOf (34 / 100) EUR := by
  refine ⟨?_, ?_, ?_, ?_⟩
  · simp only [Money.allocate, Money.allocShares, Money.allocRemainder, Money.amountAsInt,
      Money.valueOf, Money.isZero, Money.withAmount, toDecimalPlaces, roundHalfUp, jsRound,
      remFlag, allocShare, EUR, List.map, List.sum, List.foldr, beq_iff_eq]
    norm_num [passOne, passTwo]
  · norm_num [Money.valueOf, toDecimalPlaces, roundHalfUp, EUR]
  · simp only [Money.allocate, Money.allocShares, Money.allocRemainder, Money.amountAsInt,
      Money.valueOf, Money.isZero, Money.withAmount, toDecimalPlaces, roundHalfUp, jsRound,
      remFlag, allocShare, EUR, List.map, List.sum, List.foldr, beq_iff_eq]
    norm_num [passOne, passTwo]
  · simp only [Money.valueOf, toDecimalPlaces, roundHalfUp, EUR, Money.mk.injEq]
    norm_num

/-- C2 amended: a zero-ratio key (amid non-negative ratios with at least
one non-zero) receives a zero floored share and a zero rounding signal,
so the first remainder pass leaves it at exactly zero; the second
(exhaustion) pass may however award it one minor unit, so its final
amount is either `0` or one minor unit — it is not excluded from the
second pass, and removing it can change other keys' allocations. -/
theorem c2_zero_ratio_amended (m : Money) (ratios : List (String × ℚ))
    (hnn : ∀ p ∈ ratios, 0 ≤ p.2) (_hzero : ∃ p ∈ ratios, p.2 = 0)
    (hex : ∃ p ∈ ratios, p.2 ≠ 0) :
    ∃ out, m.allocate ratios = .ok out
      ∧ List.Forall₂ (fun p q => p.1 = q.1 ∧ (p.2 = 0 →
          q.2.amount = 0 ∨ q.2.amount = 1 / 10 ^ m.currency.exponent)) ratios out
      ∧ List.Forall₂ (fun p o => p.2 = 0 → o.2 = 0) ratios
          (passOne (m.allocShares ratios) (m.allocRemainder ratios)).1 :=
  allocate_zero_ratio_spec m ratios (sum_ne_zero_of_nonneg_of_exists hnn hex)

/-- C2 witness: the amended statement at `1.00 EUR` with ratios
`0 ↦ 0, 1 ↦ 1, 2 ↦ 2`. -/
theorem c2_witness :
    ∃ out, (Money.valueOf 1 EUR).allocate [("0", 0), ("1", 1), ("2", 2)] = .ok out
      ∧ List.Forall₂ (fun (p : String × ℚ) (q : String × Money) => p.1 = q.1 ∧ (p.2 = 0 →
          q.2.amount = 0 ∨
          q.2.amount = 1 / 10 ^ (Money.valueOf 1 EUR).currency.exponent))
          [("0", 0), ("1", 1), ("2", 2)] out
      ∧ List.Forall₂ (fun (p : String × ℚ) (o : String × ℤ) => p.2 = 0 → o.2 = 0)
          [("0", 0), ("1", 1), ("2", 2)]
          (passOne ((Money.valueOf 1 EUR).allocShares [("0", 0), ("1", 1), ("2", 2)])
            ((Money.valueOf 1 EUR).allocRemainder [("0", 0), ("1", 1), ("2", 2)])).1 :=
  c2_zero_ratio_amended (Money.valueOf 1 EUR) [("0", 0), ("1", 1), ("2", 2)]
    (by simp only [List.mem_cons, List.not_mem_nil, or_false]
        rintro p (rfl | rfl | rfl) <;> norm_num)
    ⟨("0", 0), by simp, rfl⟩
    ⟨("2", 2), by simp, by norm_num⟩

/-- C3 counterexample: allocating `0.00 EUR` with an *empty* ratio map
does not raise the "no ratios defined" error — it succeeds with an empty
result — contradicting the claim that emptiness of the ratio map alone
forces the error. -/
theorem c3_counterexample :
    Money.allocate (Money.valueOf 0 EUR) ([] : List (String × ℚ)) = .ok []
    ∧ Money.allocate (Money.valueOf 0 EUR) ([] : List (String × ℚ)) ≠
      .error .noRatiosDefined := by
  have h : Money.allocate (Money.valueOf 0 EUR) ([] : List (String × ℚ)) = .ok [] := by
    have := allocate_zero_branch (Money.valueOf 0 EUR) ([] : List (String × ℚ))
      (by simp) (by norm_num [Money.valueOf, toDecimalPlaces, roundHalfUp, EUR])
    simpa using this
  exact ⟨h, by rw [h]; simp⟩

/-- C3 amended: with non-negative ratios, `allocate` raises the
"no ratios defined" error exactly when every ratio is zero (vacuously so
for an empty map) *and* the amount is non-zero; in every other case —
including an empty ratio map with a zero amount — the call succeeds. -/
theorem c3_no_ratios_error_amended (m : Money) (ratios : List (String × ℚ))
    (hnn : ∀ p ∈ ratios, 0 ≤ p.2) :
    (m.allocate ratios = .error .noRatiosDefined ↔
      ((∀ p ∈ ratios, p.2 = 0) ∧ m.amount ≠ 0))
    ∧ ((m.allocate ratios).isOk = true ↔
      ¬ ((∀ p ∈ ratios, p.2 = 0) ∧ m.amount ≠ 0)) :=
  allocate_error_characterization m ratios hnn

/-- C3 witness: `1.00 EUR` with the single zero ratio raises the error. -/
theorem c3_witness :
    (Money.valueOf 1 EUR).allocate [("0", 0)] = .error .noRatiosDefined :=
  (c3_no_ratios_error_amended (Money.valueOf 1 EUR) [("0", 0)]
      (by simp only [List.mem_cons, List.not_mem_nil, or_false]
          rintro p rfl
          norm_num)).1.mpr
    ⟨by simp only [List.mem_cons, List.not_mem_nil, or_false]
        rintro p rfl
        rfl,
      by norm_num [Money.valueOf, toDecimalPlaces, roundHalfUp, EUR]⟩

/-- C4 counterexample: in the `0.05 EUR` split `3 : 7`, the exact shares
are `1.5` and `3.5` minor units, and under round-half-up *both* keys'
exact shares round up (both rounding signals are `1`) — not only the
first key's.  The leftover unit lands on key `0` only because the first
remainder pass walks keys in insertion order until the single leftover
unit is exhausted, refuting the claim's stated reason. -/
theorem c4_counterexample :
    remFlag (allocShare (Money.valueOf (5 / 100) EUR).amountAsInt
      ([(("0" : String), (3 : ℚ)), ("1", 7)].map Prod.snd).sum 3) = 1
    ∧ remFlag (allocShare (Money.valueOf (5 / 100) EUR).amountAsInt
      ([(("0" : String), (3 : ℚ)), ("1", 7)].map Prod.snd).sum 7) = 1 := by
  constructor <;>
    norm_num [remFlag, allocShare, jsRound, Money.amountAsInt, Money.valueOf,
      toDecimalPlaces, roundHalfUp, EUR]

/-- C4 amended: both load-bearing scenarios hold exactly —
`allocate(1.00 EUR, 1:2)` yields `0.33 / 0.67` and
`allocate(0.05 EUR, 3:7)` yields `0.02 / 0.03`; in the latter both keys'
exact shares round up, and the leftover unit goes to the first key
because the first remainder pass awards units in insertion order until
the remainder is exhausted. -/
theorem c4_tie_break_scenarios :
    Money.allocate (Money.valueOf 1 EUR) [("0", 1), ("1", 2)] =
      .ok [("0", Money.valueOf (33 / 100) EUR), ("1", Money.valueOf (67 / 100) EUR)]
    ∧ Money.allocate (Money.valueOf (5 / 100) EUR) [("0", 3), ("1", 7)] =
      .ok [("0", Money.valueOf (2 / 100) EUR), ("1", Money.valueOf (3 / 100) EUR)] := by
  constructor <;>
    (simp only [Money.allocate, Money.allocShares, Money.allocRemainder, Money.amountAsInt,
      Money.valueOf, Money.isZero, Money.withAmount, toDecimalPlaces, roundHalfUp, jsRound,
      remFlag, allocShare, EUR, List.map, List.sum, List.foldr, beq_iff_eq]
     norm_num [passOne, passTwo])

/-- C5 counterexample: `Currency.equals` compares a *string* argument by
code alone — the currency `(EUR, exponent 3)` equals the bare string
`"EUR"` even though the string carries no exponent matching `3` (it is
not the record `("EUR", 3)`), so equality does not hold only when both
code and exponent match. -/
theorem c5_counterexample :
    ¬ (Currency.equals ⟨"EUR", 3⟩ (EqArg.str "EUR") = true ↔
      EqArg.str "EUR" = EqArg.record (Currency.mk "EUR" 3).code
        (Currency.mk "EUR" 3).exponent) := by
  decide

/-- C5 amended: `Currency.equals` returns true exactly when the argument
is a record (currency instance or definition) whose code *and* exponent
both match, or a bare string equal to the currency's code (the exponent
is then ignored); it returns false — never throwing — for `undefined`,
`null`, and every non-record, non-string value. -/
theorem c5_currency_equals_amended (c : Currency) (x : EqArg) :
    c.equals x = true ↔
      (x = EqArg.record c.code c.exponent ∨ x = EqArg.str c.code) := by
  obtain ⟨cc, ce⟩ := c
  cases x with
  | undef => simp [Currency.equals]
  | null => simp [Currency.equals]
  | str s =>
    have hg : ¬ (EqArg.str s = EqArg.undef ∨ EqArg.str s = EqArg.null) := by simp
    unfold Currency.equals
    rw [if_neg hg]
    show (cc == s) = true ↔ _
    simp only [beq_iff_eq]
    constructor
    · intro h; exact Or.inr (by rw [h])
    · rintro (h | h)
      · cases h
      · injection h with h2; exact h2.symm
  | record code exp =>
    have hg : ¬ (EqArg.record code exp = EqArg.undef ∨
        EqArg.record code exp = EqArg.null) := by simp
    unfold Currency.equals
    rw [if_neg hg]
    show (cc == code && ce == exp) = true ↔ _
    simp only [Bool.and_eq_true, beq_iff_eq, EqArg.record.injEq]
    constructor
    · rintro ⟨h1, h2⟩; exact Or.inl ⟨h1.symm, h2.symm⟩
    · rintro (⟨h1, h2⟩ | h)
      · exact ⟨h1.symm, h2.symm⟩
      · cases h
  | other => simp [Currency.equals, isRecord]

/-- C6: when every ratio is zero and the amount is exactly zero,
`allocate` succeeds and maps every key of the ratio map to the original
(zero-amount) `Money` object itself — the zero-sum branch returns before
any share division is reached. -/
theorem c6_all_zero_ratios_zero_amount (m : Money) (ratios : List (String × ℚ))
    (h0 : ∀ p ∈ ratios, p.2 = 0) (hz : m.amount = 0) :
    m.allocate ratios = .ok (ratios.map fun p => (p.1, m)) := by
  apply allocate_zero_branch m ratios _ hz
  exact List.sum_eq_zero fun x hx => by
    obtain ⟨p, hp, rfl⟩ := List.mem_map.mp hx
    exact h0 p hp

/-- C6 witness: `0.00 EUR` allocated over the single zero ratio returns
the original zero `Money`. -/
theorem c6_witness :
    (Money.valueOf 0 EUR).allocate [("0", 0)] =
      .ok [("0", Money.valueOf 0 EUR)] := by
  have h := c6_all_zero_ratios_zero_amount (Money.valueOf 0 EUR) [("0", 0)]
    (by simp only [List.mem_cons, List.not_mem_nil, or_false]
        rintro p rfl
        rfl)
    (by norm_num [Money.valueOf, toDecimalPlaces, roundHalfUp, EUR])
  simpa using h

/-- C7: every `Money` built by the constructor carries an amount rounded
(half-up) to exactly `currency.exponent` decimal places, and every
operation producing a `Money` — `plus`, `minus`, `mul`, `div` (non-zero
divider), `convertTo`, and each entry of `allocate` — returns a new
`Money` satisfying the same precision invariant (the embedding is purely
functional, so no operation mutates its receiver). -/
theorem c7_precision_invariant :
    (∀ (a : ℚ) (c : Currency), (Money.valueOf a c).isAtPrecision
      ∧ (Money.valueOf a c).amount = toDecimalPlaces a c.exponent)
    ∧ (∀ m v r : Money, m.plus v = .ok r → r.isAtPrecision)
    ∧ (∀ m v r : Money, m.minus v = .ok r → r.isAtPrecision)
    ∧ (∀ (m : Money) (k : ℚ), (m.mul k).isAtPrecision)
    ∧ (∀ (m : Money) (k : ℚ), k ≠ 0 → (m.div k).isAtPrecision)
    ∧ (∀ (m : Money) (c : Currency) (r : ℚ), (m.convertTo c r).isAtPrecision)
    ∧ (∀ (m : Money) (ratios : List (String × ℚ)) (out : List (String × Money)),
        m.isAtPrecision → m.allocate ratios = .ok out →
        ∀ p ∈ out, p.2.isAtPrecision) := by
  refine ⟨fun a c => ⟨valueOf_isAtPrecision a c, rfl⟩, ?_, ?_, ?_, ?_, ?_, ?_⟩
  · intro m v r h
    unfold Money.plus at h
    split at h
    · injection h with h2
      exact h2 ▸ valueOf_isAtPrecision _ _
    · cases h
  · intro m v r h
    unfold Money.minus at h
    split at h
    · injection h with h2
      exact h2 ▸ valueOf_isAtPrecision _ _
    · cases h
  · intro m k
    exact valueOf_isAtPrecision _ _
  · intro m k _hk
    exact valueOf_isAtPrecision _ _
  · intro m c r
    exact valueOf_isAtPrecision _ _
  · intro m ratios out hm h p hp
    by_cases hS : (ratios.map Prod.snd).sum = 0
    · by_cases hz : m.amount = 0
      · rw [allocate_zero_branch m ratios hS hz] at h
        injection h with h2
        subst h2
        obtain ⟨q, _, rfl⟩ := List.mem_map.mp hp
        exact hm
      · exfalso
        have herr : m.allocate ratios = .error .noRatiosDefined := by
          unfold Money.allocate
          simp [if_pos hS, Money.isZero, hz]
        rw [herr] at h
        cases h
    · obtain ⟨out2, h1, _, h3, _⟩ := allocate_ok_spec m ratios hm hS
      rw [h1] at h
      injection h with h2
      subst h2
      exact (h3 p hp).2

/-- C7 witness: the invariant applied at `1.00 EUR / 3` (non-zero
divider discharged) and at `1.00 EUR + 2.00 EUR` (the `plus` success
hypothesis discharged). -/
theorem c7_witness :
    (Money.div (Money.valueOf 1 EUR) 3).isAtPrecision
    ∧ (Money.valueOf 3 EUR).isAtPrecision :=
  ⟨c7_precision_invariant.2.2.2.2.1 (Money.valueOf 1 EUR) 3 (by norm_num),
    c7_precision_invariant.2.1 (Money.valueOf 1 EUR) (Money.valueOf 2 EUR)
      (Money.valueOf 3 EUR)
      (by have hcond : (Money.valueOf 1 EUR).currency.equalsC
              (Money.valueOf 2 EUR).currency = true :=
            (equalsC_iff _ _).mpr rfl
          unfold Money.plus
          rw [if_pos hcond]
          unfold Money.withAmount Money.valueOf
          norm_num [toDecimalPlaces, roundHalfUp, EUR])⟩

/-- C8: `plus` and `minus` fail with `CurrencyError` exactly when the two
currencies differ (by `Currency` equality: code and exponent), and on
matching currencies return the exact decimal sum or difference in the
same currency (the re-rounding on construction is the identity because
both operands are at the currency's precision). -/
theorem c8_plus_minus_currency_check (m v : Money)
    (hm : m.isAtPrecision) (hv : v.isAtPrecision) :
    (m.currency ≠ v.currency →
      m.plus v = .error .currencyError ∧ m.minus v = .error .currencyError)
    ∧ (m.currency = v.currency →
      m.plus v = .ok ⟨m.amount + v.amount, m.currency⟩
      ∧ m.minus v = .ok ⟨m.amount - v.amount, m.currency⟩) := by
  constructor
  · intro hne
    have hcond : ¬ (m.currency.equalsC v.currency = true) := fun h =>
      hne ((equalsC_iff _ _).mp h)
    constructor
    · unfold Money.plus
      rw [if_neg hcond]
    · unfold Money.minus
      rw [if_neg hcond]
  · intro heq
    have hcond : m.currency.equalsC v.currency = true := (equalsC_iff _ _).mpr heq
    have hv2 : atPlaces v.amount m.currency.exponent := by
      rw [heq]; exact hv
    constructor
    · unfold Money.plus Money.withAmount Money.valueOf
      rw [if_pos hcond, toDecimalPlaces_of_atPlaces (atPlaces_add hm hv2)]
    · unfold Money.minus Money.withAmount Money.valueOf
      rw [if_pos hcond, toDecimalPlaces_of_atPlaces (atPlaces_sub hm hv2)]

/-- C8 witness: `Money(1, EUR) + Money(1, USD)` and the matching
subtraction both fail with `CurrencyError`. -/
theorem c8_witness :
    (Money.valueOf 1 EUR).plus (Money.valueOf 1 USD) = .error .currencyError
    ∧ (Money.valueOf 1 EUR).minus (Money.valueOf 1 USD) = .error .currencyError :=
  (c8_plus_minus_currency_check (Money.valueOf 1 EUR) (Money.valueOf 1 USD)
    (valueOf_isAtPrecision 1 EUR) (valueOf_isAtPrecision 1 USD)).1 (by decide)

/-- C9: `convertTo` first multiplies the amount by the rate and rounds
the product to the *current* currency's exponent, then hands that value
to the constructor of a `Money` in the target currency, which re-rounds
to the target's exponent — exactly two rounding stages in this order. -/
theorem c9_convertTo_two_stage (m : Money) (t : Currency) (r : ℚ) :
    m.convertTo t r = Money.valueOf (toDecimalPlaces (m.amount * r) m.currency.exponent) t
    ∧ (m.convertTo t r).amount =
      toDecimalPlaces (toDecimalPlaces (m.amount * r) m.currency.exponent) t.exponent
    ∧ (m.convertTo t r).currency = t :=
  ⟨rfl, rfl, rfl⟩

/-- C10: `Money.equals` guards only `undefined` and `null` (returning
`false`), and for any other argument immediately compares the `amount`
field as a decimal before any shape check — so an object without a
decimal-convertible `amount` field (such as the empty object) makes the
call throw instead of returning `false`. -/
theorem c10_money_equals_throws (m : Money) :
    m.equals MoneyArg.undef = .ok false
    ∧ m.equals MoneyArg.null = .ok false
    ∧ (∀ cur : EqArg, m.equals (MoneyArg.obj none cur) = .error .decimalError) :=
  ⟨rfl, rfl, fun _ => rfl⟩
